import Mathlib

/-!
Shallow embedding of `analyse.py` (bash xtrace profiler): line parsing
(`LINE_RE`), function-marker detection (`FUNC_MARKER_RE`), the attribution
walk (`attribute_time`), summary building (`build_summary`) and the `main`
pipeline.  Timestamps are modelled as exact rationals (`ℚ`); Python floats
are decimal literals converted to binary floating point, and the claims of the spec are all stated "up to floating-point rounding", so exact rational
arithmetic is the intended idealisation.
-/

namespace Profiler

attribute [local semireducible] Rat.add Rat.sub Rat.mul Rat.inv

instance {ε α : Type} [DecidableEq ε] [DecidableEq α] : DecidableEq (Except ε α) := fun x y =>
  match x, y with
  | .error a, .error b =>
    if h : a = b then .isTrue (by rw [h]) else .isFalse (by simp [h])
  | .error _, .ok _ => .isFalse (by simp)
  | .ok _, .error _ => .isFalse (by simp)
  | .ok a, .ok b =>
    if h : a = b then .isTrue (by rw [h]) else .isFalse (by simp [h])

/-- Python regex `\s` on the ASCII range: space, tab, newline, carriage
return, vertical tab, form feed. -/
def isSpaceCh (c : Char) : Bool :=
  c == ' ' || c == '\t' || c == '\n' || c == '\r' || c == '\x0b' || c == '\x0c'

/-- Python regex `\d` (ASCII). -/
def isDigitCh (c : Char) : Bool := '0' ≤ c && c ≤ '9'

/-- The `+` depth marker. -/
def isPlusCh (c : Char) : Bool := c == '+'

/-- The character class `[A-Za-z0-9_-]` of `FUNC_MARKER_RE`. -/
def isTokenCh (c : Char) : Bool :=
  ('A' ≤ c && c ≤ 'Z') || ('a' ≤ c && c ≤ 'z') || isDigitCh c || c == '_' || c == '-'

/-- Numeric value of a decimal digit character. -/
def digitVal (c : Char) : ℕ := c.toNat - '0'.toNat

/-- Value of a digit string read in base 10. -/
def natOfDigits (ds : List Char) : ℕ := ds.foldl (fun a c => 10 * a + digitVal c) 0

/-- Python float of the decimal string ds.fs, idealised as an exact rational. -/
def tsVal (ds fs : List Char) : ℚ :=
  (natOfDigits ds : ℚ) + (natOfDigits fs : ℚ) / (10 : ℚ) ^ fs.length

/-- Python rstrip with a newline argument: remove trailing newline characters. -/
def rstripNl (cs : List Char) : List Char := (cs.reverse.dropWhile (· == '\n')).reverse

/--
`LINE_RE = ^(?P<pluses>\++)\s+(?P<ts>\d+\.\d{6,})\s+(?P<rest>.*)$` applied
with `re.match` to a line (already stripped of trailing newlines).  Each
quantifier here is followed by a character from a disjoint class, so the
greedy regex behaves as maximal munch; `.*$` cannot cross a newline, hence
the final check that no newline remains in the rest.  Returns
`(depth, timestamp, rest)`.
-/
def parseLineChars (cs : List Char) : Option (ℕ × ℚ × List Char) :=
  let pluses := cs.takeWhile isPlusCh
  let r1 := cs.dropWhile isPlusCh
  if pluses.isEmpty then none else
  let ws1 := r1.takeWhile isSpaceCh
  let r2 := r1.dropWhile isSpaceCh
  if ws1.isEmpty then none else
  let ds := r2.takeWhile isDigitCh
  let r3 := r2.dropWhile isDigitCh
  if ds.isEmpty then none else
  if r3.head? ≠ some '.' then none else
  let r4 := r3.tail
  let fs := r4.takeWhile isDigitCh
  let r5 := r4.dropWhile isDigitCh
  if fs.length < 6 then none else
  let ws2 := r5.takeWhile isSpaceCh
  let r6 := r5.dropWhile isSpaceCh
  if ws2.isEmpty then none else
  if '\n' ∈ r6 then none else
  some (pluses.length, tsVal ds fs, r6)

/-- The scan head sits on the literal `():` right after a non-empty token
run (held reversed in `acc`). -/
def markerHit (acc : List Char) (c : Char) (rest : List Char) : Bool :=
  match acc, c, rest with
  | _ :: _, '(', ')' :: ':' :: _ => true
  | _, _, _ => false

/--
`FUNC_MARKER_RE.search`: find the first maximal run of `[A-Za-z0-9_-]`
characters immediately followed by the literal `():`; the accumulator holds
the current run reversed.  `(`, `)` and `:` are not token characters, so on
a failed run the scan safely resumes after it.
-/
def findMarkerAux : List Char → List Char → Option (List Char)
  | _, [] => none
  | acc, c :: rest =>
    if isTokenCh c then findMarkerAux (c :: acc) rest
    else if markerHit acc c rest then some acc.reverse
    else findMarkerAux [] rest

/-- The search for `FUNC_MARKER_RE` in the remainder, returning the captured `name` group. -/
def findMarker (cs : List Char) : Option String :=
  (findMarkerAux [] cs).map fun l => ⟨l⟩

/-- One element of the `parsed` list: `(i, depth, ts, func, rest)`. -/
structure ParsedLine where
  idx : ℕ
  depth : ℕ
  ts : ℚ
  func : Option String
  rest : List Char
  deriving DecidableEq

/-- Parse one raw line: strip trailing newlines, then match `LINE_RE`. -/
def parseLine (s : List Char) : Option (ℕ × ℚ × List Char) :=
  parseLineChars (rstripNl s)

/-- The enumerated loop of `parse_log`. -/
def parseLogAux : ℕ → List (List Char) → List ParsedLine
  | _, [] => []
  | i, s :: rest =>
    match parseLine s with
    | none => parseLogAux (i + 1) rest
    | some (d, q, r) => ⟨i, d, q, findMarker r, r⟩ :: parseLogAux (i + 1) rest

/-- The function `parse_log`: keep only lines matching `LINE_RE`, with their ordinal. -/
def parse_log (lines : List (List Char)) : List ParsedLine := parseLogAux 0 lines

/-- The map `func_time`: a float defaultdict in Python insertion order. -/
abbrev FuncTime : Type := List (String × ℚ)

/-- The map `func_calls`: a `Counter` in Python insertion order. -/
abbrev FuncCalls : Type := List (String × ℕ)

/-- Adding `dt` to `func_time` at `name` on a float defaultdict: update in place, or
append with initial value `0.0 + dt`. -/
def addTime : FuncTime → String → ℚ → FuncTime
  | [], nm, dt => [(nm, dt)]
  | (k, v) :: rest, nm, dt =>
    if k = nm then (k, v + dt) :: rest else (k, v) :: addTime rest nm dt

/-- Incrementing `func_calls` at `name` on a `Counter`. -/
def incrCall : FuncCalls → String → FuncCalls
  | [], nm => [(nm, 1)]
  | (k, v) :: rest, nm =>
    if k = nm then (k, v + 1) :: rest else (k, v) :: incrCall rest nm

/-- Read the accumulated seconds of a function (0.0 when absent, as the
defaultdict would create it). -/
def lkFT (ft : FuncTime) (nm : String) : ℚ := (ft.lookup nm).getD 0

/-- The lookup `func_calls.get(name, 0)`. -/
def lkC (fc : FuncCalls) (nm : String) : ℕ := (fc.lookup nm).getD 0

/-- The sentinel bucket for unattributed time. -/
def noFunc : String := "<no-func>"

/-- Python `max(a, b)` on two numbers: scan left to right, replace the
running maximum only on strict increase.  Kernel-reducible, unlike the
order-theoretic `max` of `ℚ`. -/
def pymax (a b : ℚ) : ℚ := if a < b then b else a

/-- The resolver `active_func(depth)`: search `depth, depth-1, …, 1` in
`current_func_by_depth` and return the first function found. -/
def active_func (m : ℕ → Option String) : ℕ → Option String
  | 0 => none
  | d + 1 =>
    match m (d + 1) with
    | some f => some f
    | none => active_func m d

/-- Setting `current_func_by_depth` at `depth` to `func` when the line declares a marker. -/
def mUpd (m : ℕ → Option String) (e : ParsedLine) : ℕ → Option String :=
  match e.func with
  | some f => fun d => if d = e.depth then some f else m d
  | none => m

/-- Incrementing `func_calls` at `func` when the line declares a marker. -/
def fcUpd (fc : FuncCalls) (e : ParsedLine) : FuncCalls :=
  match e.func with
  | some f => incrCall fc f
  | none => fc

/-- The delta `dt`: clamped delta to the next parsed line, `0.0` for the last line. -/
def dtNext (e : ParsedLine) (rest : List ParsedLine) : ℚ :=
  match rest with
  | [] => 0
  | e2 :: _ => pymax 0 (e2.ts - e.ts)

/-- The `for idx, (i, depth, ts, func, rest) in enumerate(parsed)` loop of
`attribute_time`: record the marker, compute `dt`, attribute it to the
active function or the sentinel. -/
def attrLoop (m : ℕ → Option String) (ft : FuncTime) (fc : FuncCalls) :
    List ParsedLine → FuncTime × FuncCalls
  | [] => (ft, fc)
  | e :: rest =>
    let m2 := mUpd m e
    let bucket := (active_func m2 e.depth).getD noFunc
    attrLoop m2 (addTime ft bucket (dtNext e rest)) (fcUpd fc e) rest

/-- The engine `attribute_time` on a list known to be non-empty (as `main` guarantees):
run the loop from empty state and compute the clamped wall time. -/
def attributeTimeNE (e : ParsedLine) (rest : List ParsedLine) :
    FuncTime × FuncCalls × ℚ :=
  let p := attrLoop (fun _ => none) [] [] (e :: rest)
  (p.1, p.2, pymax 0 ((List.getLastD rest e).ts - e.ts))

/-- The engine `attribute_time`: indexing `parsed` raises `IndexError` on an empty list,
modelled as `none`. -/
def attribute_time (parsed : List ParsedLine) : Option (FuncTime × FuncCalls × ℚ) :=
  match parsed with
  | [] => none
  | e :: rest => some (attributeTimeNE e rest)

/-- One summary tuple `(name, total_seconds, percent_of_wall, calls, avg)`. -/
structure SummaryRow where
  name : String
  total : ℚ
  pct : ℚ
  calls : ℕ
  avg : ℚ
  deriving DecidableEq

/-- The sort key `lambda x: (-x[1], x[0])` as a total preorder on rows:
larger totals first, ties by ascending (lexicographic) name. -/
def rowKey (a b : SummaryRow) : Prop :=
  b.total < a.total ∨ (a.total = b.total ∧ a.name ≤ b.name)

instance : DecidableRel rowKey := fun a b => by unfold rowKey; infer_instance

/-- The builder `build_summary`: one row per accumulated name, with guarded average and
percentage, stably sorted by `(-total, name)` (Python `list.sort` is also a
stable sort by this total preorder, so both produce the identical list). -/
def build_summary (ft : FuncTime) (fc : FuncCalls) (wall : ℚ) : List SummaryRow :=
  List.insertionSort rowKey (ft.map fun p =>
    let calls := lkC fc p.1
    let avg := if calls ≠ 0 then p.2 / (calls : ℚ) else 0
    let pct := if 0 < wall then p.2 / wall * 100 else 0
    ⟨p.1, p.2, pct, calls, avg⟩)

/-- The diagnostic printed to stderr before `sys.exit(1)`. -/
def diagMsg : String :=
  "No matching lines found. Ensure your trace has timestamps and leading \x27+\x27 depth markers."

/-- The analysis part of `main`: parse, fail on an empty parse with the
diagnostic and a non-zero exit (modelled as `Except.error`), otherwise
attribute and summarise. -/
def run_main (lines : List (List Char)) : Except String (List SummaryRow × ℚ) :=
  match parse_log lines with
  | [] => Except.error diagMsg
  | e :: rest =>
    match attributeTimeNE e rest with
    | (ft, fc, wall) => Except.ok (build_summary ft fc wall, wall)

/-! Derived quantities and concrete inputs used by the claims. -/

/-- Total of all accumulated buckets (`sum(func_time.values())`). -/
def sumFT (ft : FuncTime) : ℚ := (ft.map Prod.snd).sum

/-- The total `dt` handed out by the attribution walk over a parsed list:
clamped delta of each event to its successor, `0` for the last event. -/
def sumDts : List ParsedLine → ℚ
  | [] => 0
  | e :: rest => dtNext e rest + sumDts rest

/-- The four-line example trace of the spec. -/
def c1Lines : List (List Char) :=
  ["+ 1000.000000 main".data, "+ 1000.100000 main(): setup".data,
   "+ 1000.400000 main(): run".data, "+ 1000.900000 main".data]

/-- A trace whose timestamps go backwards: 0s, 5s, 3s. -/
def c2Lines : List (List Char) :=
  ["+ 0.000000 a".data, "+ 5.000000 a".data, "+ 3.000000 a".data]

/-- A two-line marker-free trace: all time lands in the sentinel bucket. -/
def c10Lines : List (List Char) :=
  ["+ 1.000000 x".data, "+ 2.000000 y".data]

/-- An input none of whose lines match the trace grammar. -/
def c6Lines : List (List Char) := ["no timestamps here".data]

/-- A depth map declaring functions at depths 1 and 2 but not 3. -/
def c3Map : ℕ → Option String :=
  fun d => if d = 2 then some "f2" else if d = 1 then some "f1" else none

/-- Concrete parsed events used to witness the marker-overwrite claim. -/
def c4E1 : ParsedLine := ⟨0, 1, 0, some "f", []⟩

def c4E2 : ParsedLine := ⟨1, 1, 1, some "g", []⟩

def c4E3 : ParsedLine := ⟨2, 1, 3, none, []⟩

/-- Concrete parsed events with a backwards timestamp pair. -/
def c5E1 : ParsedLine := ⟨0, 1, 7, none, []⟩

def c5E2 : ParsedLine := ⟨1, 1, 4, none, []⟩

/-- The declarative reading of the line grammar of the spec: `n ≥ 1` leading `+`
characters, whitespace, an integer digit run `ds`, a dot, a fractional run
`fs` of at least six digits, whitespace, then arbitrary remainder text. -/
def LineDecomp (cs : List Char) (n : ℕ) (ds fs : List Char) : Prop :=
  ∃ w1 w2 rest : List Char,
    0 < n ∧ w1 ≠ [] ∧ ds ≠ [] ∧ 6 ≤ fs.length ∧ w2 ≠ [] ∧
    (∀ c ∈ w1, isSpaceCh c) ∧ (∀ c ∈ ds, isDigitCh c) ∧
    (∀ c ∈ fs, isDigitCh c) ∧ (∀ c ∈ w2, isSpaceCh c) ∧
    cs = List.replicate n '+' ++ (w1 ++ (ds ++ '.' :: (fs ++ (w2 ++ rest))))

/-- A line matches the trace grammar for some depth and timestamp digits. -/
def MatchesLine (cs : List Char) : Prop := ∃ n ds fs, LineDecomp cs n ds fs

/-! Lemmas about the accumulator maps. -/

theorem lkFT_cons (k : String) (v : ℚ) (t : FuncTime) (nm : String) :
    lkFT ((k, v) :: t) nm = if nm = k then v else lkFT t nm := by
  by_cases h : nm = k
  · simp [lkFT, List.lookup, h]
  · simp [lkFT, List.lookup, h, beq_eq_false_iff_ne.mpr h]

theorem lkC_cons (k : String) (v : ℕ) (t : FuncCalls) (nm : String) :
    lkC ((k, v) :: t) nm = if nm = k then v else lkC t nm := by
  by_cases h : nm = k
  · simp [lkC, List.lookup, h]
  · simp [lkC, List.lookup, h, beq_eq_false_iff_ne.mpr h]

theorem lkFT_addTime (ft : FuncTime) (b : String) (dt : ℚ) (nm : String) :
    lkFT (addTime ft b dt) nm = if nm = b then lkFT ft nm + dt else lkFT ft nm := by
  induction ft with
  | nil =>
    by_cases h : nm = b
    · simp [addTime, lkFT, List.lookup, h]
    · simp [addTime, lkFT, List.lookup, h, beq_eq_false_iff_ne.mpr h]
  | cons p t ih =>
    obtain ⟨k, v⟩ := p
    by_cases hkb : k = b
    · subst hkb
      by_cases h : nm = k <;> simp [addTime, lkFT_cons, h]
    · simp only [addTime, if_neg hkb, lkFT_cons, ih]
      by_cases h : nm = k
      · subst h
        simp [hkb]
      · simp [h]

theorem lkC_incrCall (fc : FuncCalls) (b : String) (nm : String) :
    lkC (incrCall fc b) nm = if nm = b then lkC fc nm + 1 else lkC fc nm := by
  induction fc with
  | nil =>
    by_cases h : nm = b
    · simp [incrCall, lkC, List.lookup, h]
    · simp [incrCall, lkC, List.lookup, h, beq_eq_false_iff_ne.mpr h]
  | cons p t ih =>
    obtain ⟨k, v⟩ := p
    by_cases hkb : k = b
    · subst hkb
      by_cases h : nm = k <;> simp [incrCall, lkC_cons, h]
    · simp only [incrCall, if_neg hkb, lkC_cons, ih]
      by_cases h : nm = k
      · subst h
        simp [hkb]
      · simp [h]

theorem sumFT_addTime (ft : FuncTime) (b : String) (dt : ℚ) :
    sumFT (addTime ft b dt) = sumFT ft + dt := by
  induction ft with
  | nil => simp [addTime, sumFT]
  | cons p t ih =>
    obtain ⟨k, v⟩ := p
    by_cases hkb : k = b
    · subst hkb
      simp [addTime, sumFT]
      ring
    · simp [addTime, hkb, sumFT] at ih ⊢
      rw [ih]
      ring

/-! Lemmas about `pymax` and the per-event deltas. -/

theorem pymax_eq_max (a b : ℚ) : pymax a b = max a b := by
  unfold pymax
  rcases lt_or_ge a b with h | h
  · rw [if_pos h, max_eq_right h.le]
  · rw [if_neg (not_lt.mpr h), max_eq_left h]

theorem pymax_zero_of_nonneg {x : ℚ} (h : 0 ≤ x) : pymax 0 x = x := by
  unfold pymax
  rcases lt_or_eq_of_le h with h1 | h1
  · rw [if_pos h1]
  · rw [← h1]
    simp

theorem dtNext_nonneg (e : ParsedLine) (rest : List ParsedLine) : 0 ≤ dtNext e rest := by
  cases rest with
  | nil => simp [dtNext]
  | cons e2 t =>
    simp only [dtNext, pymax_eq_max]
    exact le_max_left _ _

theorem sumDts_nonneg (l : List ParsedLine) : 0 ≤ sumDts l := by
  induction l with
  | nil => simp [sumDts]
  | cons e t ih => exact add_nonneg (dtNext_nonneg e t) ih

/-! Lemmas about the attribution walk. -/

theorem attrLoop_sum (l : List ParsedLine) :
    ∀ (m : ℕ → Option String) (ft : FuncTime) (fc : FuncCalls),
      sumFT (attrLoop m ft fc l).1 = sumFT ft + sumDts l := by
  induction l with
  | nil => intro m ft fc; simp [attrLoop, sumDts]
  | cons e rest ih =>
    intro m ft fc
    show sumFT (attrLoop (mUpd m e) (addTime ft _ (dtNext e rest)) (fcUpd fc e) rest).1 = _
    rw [ih, sumFT_addTime]
    simp [sumDts]
    ring

theorem chain_sumDts (rest : List ParsedLine) :
    ∀ e : ParsedLine,
      List.Chain' (fun a b : ParsedLine => a.ts ≤ b.ts) (e :: rest) →
      sumDts (e :: rest) = (List.getLastD rest e).ts - e.ts := by
  induction rest with
  | nil => intro e _; simp [sumDts, dtNext]
  | cons e2 rest2 ih =>
    intro e hch
    rw [List.chain'_cons] at hch
    obtain ⟨h12, hch2⟩ := hch
    have hrec := ih e2 hch2
    simp only [sumDts, dtNext] at hrec ⊢
    rw [pymax_zero_of_nonneg (by linarith), hrec, List.getLastD_cons]
    ring

theorem active_func_self (m : ℕ → Option String) (d : ℕ) (g : String)
    (hpos : 0 < d) (hm : m d = some g) : active_func m d = some g := by
  cases d with
  | zero => omega
  | succ n => simp [active_func, hm]

theorem attrLoop_lk_congr (l : List ParsedLine) :
    ∀ (m : ℕ → Option String) (fc : FuncCalls) (ft1 ft2 : FuncTime),
      (∀ nm, lkFT ft1 nm = lkFT ft2 nm) →
      ∀ nm, lkFT (attrLoop m ft1 fc l).1 nm = lkFT (attrLoop m ft2 fc l).1 nm := by
  induction l with
  | nil => intro m fc ft1 ft2 h nm; exact h nm
  | cons e rest ih =>
    intro m fc ft1 ft2 h nm
    show lkFT (attrLoop (mUpd m e) (addTime ft1 _ _) (fcUpd fc e) rest).1 nm = _
    refine ih _ _ _ _ (fun nm2 => ?_) nm
    rw [lkFT_addTime, lkFT_addTime, h nm2]

theorem attrLoop_const_depth (es : List ParsedLine) :
    ∀ (m : ℕ → Option String) (g : String) (d : ℕ),
      0 < d → m d = some g → (∀ e ∈ es, e.depth = d ∧ e.func = none) →
      ∀ (ft : FuncTime) (fc : FuncCalls),
        (attrLoop m ft fc es).2 = fc ∧
        lkFT (attrLoop m ft fc es).1 g = lkFT ft g + sumDts es ∧
        (∀ nm, nm ≠ g → lkFT (attrLoop m ft fc es).1 nm = lkFT ft nm) := by
  induction es with
  | nil =>
    intro m g d hpos hm hes ft fc
    refine ⟨rfl, ?_, fun nm _ => rfl⟩
    simp [attrLoop, sumDts]
  | cons e rest ih =>
    intro m g d hpos hm hes ft fc
    obtain ⟨hdep, hfn⟩ := hes e (List.mem_cons_self e rest)
    have hm2 : mUpd m e = m := by simp [mUpd, hfn]
    have hfc2 : fcUpd fc e = fc := by simp [fcUpd, hfn]
    have hbucket : (active_func (mUpd m e) e.depth).getD noFunc = g := by
      rw [hm2, hdep, active_func_self m d g hpos hm]
      rfl
    have hstep : attrLoop m ft fc (e :: rest)
        = attrLoop m (addTime ft g (dtNext e rest)) fc rest := by
      show attrLoop (mUpd m e) (addTime ft _ (dtNext e rest)) (fcUpd fc e) rest = _
      rw [hbucket, hm2, hfc2]
    have hrest : ∀ e2 ∈ rest, e2.depth = d ∧ e2.func = none :=
      fun e2 he2 => hes e2 (List.mem_cons_of_mem e he2)
    obtain ⟨hc, hg, hother⟩ := ih m g d hpos hm hrest (addTime ft g (dtNext e rest)) fc
    rw [hstep]
    refine ⟨hc, ?_, fun nm hnm => ?_⟩
    · rw [hg, lkFT_addTime]
      simp [sumDts]
      ring
    · rw [hother nm hnm, lkFT_addTime, if_neg hnm]

theorem attrLoop_calls_of_not_marked (l : List ParsedLine) :
    ∀ (m : ℕ → Option String) (ft : FuncTime) (fc : FuncCalls) (nm : String),
      (∀ e ∈ l, e.func ≠ some nm) →
      lkC (attrLoop m ft fc l).2 nm = lkC fc nm := by
  induction l with
  | nil => intro m ft fc nm _; rfl
  | cons e rest ih =>
    intro m ft fc nm h
    show lkC (attrLoop (mUpd m e) (addTime ft _ _) (fcUpd fc e) rest).2 nm = _
    rw [ih _ _ _ _ (fun e2 he2 => h e2 (List.mem_cons_of_mem e he2))]
    cases hf : e.func with
    | none => simp [fcUpd, hf]
    | some f =>
      have hne : nm ≠ f := by
        intro hcontra
        exact h e (List.mem_cons_self e rest) (by rw [hf, hcontra])
      simp [fcUpd, hf, lkC_incrCall, hne]

/-! Lemmas about the depth-descent resolution. -/

theorem active_func_none (m : ℕ → Option String) (depth : ℕ)
    (h : ∀ d, 0 < d → d ≤ depth → m d = none) : active_func m depth = none := by
  induction depth with
  | zero => rfl
  | succ n ih =>
    have hd : m (n + 1) = none := h (n + 1) (by omega) (le_refl _)
    show (match m (n + 1) with
      | some f => some f
      | none => active_func m n) = none
    rw [hd]
    exact ih (fun d h1 h2 => h d h1 (by omega))

theorem active_func_first_hit (m : ℕ → Option String) (depth : ℕ) :
    ∀ d f, 0 < d → d ≤ depth → m d = some f →
      (∀ d2, d < d2 → d2 ≤ depth → m d2 = none) →
      active_func m depth = some f := by
  induction depth with
  | zero => intro d f h1 h2 _ _; omega
  | succ n ih =>
    intro d f h1 h2 hd habove
    show (match m (n + 1) with
      | some f => some f
      | none => active_func m n) = some f
    by_cases htop : d = n + 1
    · rw [← htop, hd]
    · have hn : m (n + 1) = none := habove (n + 1) (by omega) (le_refl _)
      rw [hn]
      exact ih d f h1 (by omega) hd (fun d2 ha hb => habove d2 ha (by omega))

/-! Lemmas about the marker detector. -/

theorem findMarkerAux_token (cs : List Char) :
    ∀ (acc l : List Char), (∀ c ∈ acc, isTokenCh c) →
      findMarkerAux acc cs = some l → ∀ c ∈ l, isTokenCh c := by
  induction cs with
  | nil => intro acc l _ h; simp [findMarkerAux] at h
  | cons c rest ih =>
    intro acc l hacc h
    by_cases htok : isTokenCh c
    · rw [findMarkerAux, if_pos htok] at h
      exact ih (c :: acc) l
        (fun c2 hc2 => by
          rcases List.mem_cons.mp hc2 with h2 | h2
          · rw [h2]; exact htok
          · exact hacc c2 h2) h
    · rw [findMarkerAux, if_neg htok] at h
      by_cases hhit : markerHit acc c rest
      · rw [if_pos hhit] at h
        injection h with h2
        rw [← h2]
        intro c2 hc2
        rw [List.mem_reverse] at hc2
        exact hacc c2 hc2
      · rw [if_neg hhit] at h
        exact ih [] l (by simp) h

/-- Every declared function of an accepted event comes out of the marker
detector applied to some remainder text. -/
theorem parseLogAux_func (lines : List (List Char)) :
    ∀ (i : ℕ) (e : ParsedLine), e ∈ parseLogAux i lines →
      ∃ cs, e.func = findMarker cs := by
  induction lines with
  | nil => intro i e h; simp [parseLogAux] at h
  | cons s rest ih =>
    intro i e h
    rw [parseLogAux] at h
    cases hp : parseLine s with
    | none =>
      rw [hp] at h
      exact ih (i + 1) e h
    | some v =>
      obtain ⟨d, q, r⟩ := v
      rw [hp] at h
      rcases List.mem_cons.mp h with h2 | h2
      · exact ⟨r, by rw [h2]⟩
      · exact ih (i + 1) e h2

/-! The row ordering is a total, transitive preorder. -/

instance : IsTotal SummaryRow rowKey := by
  constructor
  intro a b
  unfold rowKey
  rcases lt_trichotomy a.total b.total with h | h | h
  · exact Or.inr (Or.inl h)
  · rcases le_total a.name b.name with hn | hn
    · exact Or.inl (Or.inr ⟨h, hn⟩)
    · exact Or.inr (Or.inr ⟨h.symm, hn⟩)
  · exact Or.inl (Or.inl h)

instance : IsTrans SummaryRow rowKey := by
  constructor
  intro a b c hab hbc
  unfold rowKey at hab hbc ⊢
  rcases hab with hab | ⟨hab1, hab2⟩
  · rcases hbc with hbc | ⟨hbc1, hbc2⟩
    · exact Or.inl (hbc.trans hab)
    · exact Or.inl (by rw [← hbc1]; exact hab)
  · rcases hbc with hbc | ⟨hbc1, hbc2⟩
    · exact Or.inl (by rw [hab1]; exact hbc)
    · exact Or.inr ⟨hab1.trans hbc1, hab2.trans hbc2⟩

/-! Maximal-munch lemmas for the line regex. -/

theorem takeWhile_app_all (p : Char → Bool) (xs ys : List Char)
    (hxs : ∀ c ∈ xs, p c = true) :
    (xs ++ ys).takeWhile p = xs ++ ys.takeWhile p ∧
    (xs ++ ys).dropWhile p = ys.dropWhile p := by
  induction xs with
  | nil => simp
  | cons c t ih =>
    have hc : p c = true := hxs c (List.mem_cons_self c t)
    have ht := ih (fun c2 hc2 => hxs c2 (List.mem_cons_of_mem c hc2))
    simp [List.takeWhile_cons, List.dropWhile_cons, hc, ht.1, ht.2]

theorem takeWhile_app_stop (p : Char → Bool) (xs : List Char) (y : Char)
    (ys : List Char) (hxs : ∀ c ∈ xs, p c = true) (hy : p y = false) :
    (xs ++ y :: ys).takeWhile p = xs ∧ (xs ++ y :: ys).dropWhile p = y :: ys := by
  obtain ⟨h1, h2⟩ := takeWhile_app_all p xs (y :: ys) hxs
  rw [h1, h2]
  simp [List.takeWhile_cons, List.dropWhile_cons, hy]

/-! Character-class disjointness. -/

theorem space_chars (c : Char) (h : isSpaceCh c = true) :
    c = ' ' ∨ c = '\t' ∨ c = '\n' ∨ c = '\r' ∨ c = '\x0b' ∨ c = '\x0c' := by
  simp [isSpaceCh] at h
  tauto

theorem space_not_plus (c : Char) (h : isSpaceCh c = true) : isPlusCh c = false := by
  rcases space_chars c h with h1 | h1 | h1 | h1 | h1 | h1 <;> subst h1 <;> rfl

theorem space_not_digit (c : Char) (h : isSpaceCh c = true) : isDigitCh c = false := by
  rcases space_chars c h with h1 | h1 | h1 | h1 | h1 | h1 <;> subst h1 <;> rfl

theorem digit_not_space (c : Char) (h : isDigitCh c = true) : isSpaceCh c = false := by
  cases hs : isSpaceCh c
  · rfl
  · rw [space_not_digit c hs] at h
    exact absurd h (by simp)

theorem dot_not_digit : isDigitCh '.' = false := rfl

/-! The claims. -/

/-- C1, counterexample: on the four-line example of the spec the code does not
produce buckets named `setup` and `run` at all — `FUNC_MARKER_RE` captures
the token before `():`, which is `main` on both marker lines — so `setup`
and `run` hold `0` seconds and `0` calls, not `0.3`/`0.5` and `1`/`1`. -/
theorem c1_example_counterexample :
    (attribute_time (parse_log c1Lines)).map
        (fun r => (r.2.2, lkFT r.1 noFunc, lkFT r.1 "setup", lkFT r.1 "run",
                   lkC r.2.1 "setup", lkC r.2.1 "run"))
      = some (9/10, 1/10, 0, 0, 0, 0) ∧
    ¬ ((0 : ℚ) = 3/10) ∧ ¬ ((0 : ℚ) = 1/2) ∧ ¬ ((0 : ℕ) = 1) := by
  decide

/-- C1, amended: on the four-line example wall time is 0.9s, the sentinel
`<no-func>` bucket accrues 0.1s, and the function named `main` (the name
the marker detector extracts from `main(): …`) accrues 0.3s + 0.5s + 0s =
0.8s with callCount 2. -/
theorem c1_example_amended :
    (attribute_time (parse_log c1Lines)).map
        (fun r => (r.2.2, lkFT r.1 noFunc, lkFT r.1 "main", lkC r.2.1 "main"))
      = some (9/10, 1/10, 4/5, 2) := by
  decide

/-- C2, counterexample: with accepted events at 0s, 5s, 3s the buckets sum
to 5 (each positive delta is kept, the negative one is clamped) while
`max(0, last - first)` is 3, so conservation fails for out-of-order
timestamps. -/
theorem c2_conservation_counterexample :
    (attribute_time (parse_log c2Lines)).map (fun r => (sumFT r.1, r.2.2))
      = some (5, 3) ∧ ¬ ((5 : ℚ) = 3) := by
  decide

/-- C2, amended: for every non-empty accepted-event sequence whose
timestamps are non-decreasing, the sum of all accumulated bucket totals
equals `max(0, lastTimestamp - firstTimestamp)`, which is exactly the wall
time the engine returns (exact in rational arithmetic, hence within
floating-point tolerance in the float realisation). -/
theorem c2_conservation_of_monotone (e : ParsedLine) (rest : List ParsedLine)
    (hmono : List.Chain' (fun a b : ParsedLine => a.ts ≤ b.ts) (e :: rest)) :
    sumFT (attributeTimeNE e rest).1
      = pymax 0 ((List.getLastD rest e).ts - e.ts) ∧
    sumFT (attributeTimeNE e rest).1 = (attributeTimeNE e rest).2.2 := by
  have hsum : sumFT (attributeTimeNE e rest).1 = sumDts (e :: rest) := by
    show sumFT (attrLoop (fun _ => none) [] [] (e :: rest)).1 = _
    rw [attrLoop_sum]
    simp [sumFT]
  have htel := chain_sumDts rest e hmono
  have hpos : 0 ≤ (List.getLastD rest e).ts - e.ts := by
    rw [← htel]
    exact sumDts_nonneg _
  constructor
  · rw [hsum, htel, pymax_zero_of_nonneg hpos]
  · show _ = pymax 0 ((List.getLastD rest e).ts - e.ts)
    rw [hsum, htel, pymax_zero_of_nonneg hpos]

theorem c2_conservation_of_monotone_witness :
    sumFT (attributeTimeNE c4E1 [c4E2]).1
      = pymax 0 ((List.getLastD [c4E2] c4E1).ts - c4E1.ts) :=
  (c2_conservation_of_monotone c4E1 [c4E2]
    (by rw [List.chain'_cons]; exact ⟨by decide, List.chain'_singleton _⟩)).1

/-- C3: the attribution target for an event is resolved by searching the
depth map downward from `e.depth` to `1` and taking the first depth that
has ever declared a function; if none has, the looked-up value is `none`
and the walk charges the sentinel bucket (third conjunct shows the walk
charges `(active_func …).getD noFunc` exactly). -/
theorem c3_depth_descent (m : ℕ → Option String) (depth : ℕ) :
    ((∀ d, 0 < d → d ≤ depth → m d = none) → active_func m depth = none) ∧
    (∀ d f, 0 < d → d ≤ depth → m d = some f →
        (∀ d2, d < d2 → d2 ≤ depth → m d2 = none) →
        active_func m depth = some f) ∧
    (∀ (ft : FuncTime) (fc : FuncCalls) (e : ParsedLine) (rest : List ParsedLine),
        attrLoop m ft fc (e :: rest)
          = attrLoop (mUpd m e)
              (addTime ft ((active_func (mUpd m e) e.depth).getD noFunc) (dtNext e rest))
              (fcUpd fc e) rest) :=
  ⟨active_func_none m depth, active_func_first_hit m depth, fun _ _ _ _ => rfl⟩

theorem c3_depth_descent_witness : active_func c3Map 3 = some "f2" :=
  (c3_depth_descent c3Map 3).2.1 2 "f2" (by decide) (by decide) (by decide)
    (fun d2 h1 h2 => by
      have hd2 : d2 = 3 := by omega
      subst hd2
      rfl)

/-- C4: when two events declare distinct names `f` then `g` at the same
depth, the second marker overwrites the first: every delta attributed via
that depth after the second marker (here, until the end of a marker-free
same-depth run) lands in the accumulator of `g`, the call count of `g` goes up
by one from the event of the second marker, and `f` keeps exactly its one call
and only the delta of the first event. -/
theorem c4_marker_overwrite (m : ℕ → Option String) (ft : FuncTime) (fc : FuncCalls)
    (e1 e2 : ParsedLine) (es : List ParsedLine) (f g : String)
    (hfg : g ≠ f) (h1 : e1.func = some f) (h2 : e2.func = some g)
    (hd : e2.depth = e1.depth) (hpos : 0 < e1.depth)
    (hes : ∀ e ∈ es, e.depth = e1.depth ∧ e.func = none) :
    lkC (attrLoop m ft fc (e1 :: e2 :: es)).2 g = lkC fc g + 1 ∧
    lkC (attrLoop m ft fc (e1 :: e2 :: es)).2 f = lkC fc f + 1 ∧
    lkFT (attrLoop m ft fc (e1 :: e2 :: es)).1 g = lkFT ft g + sumDts (e2 :: es) ∧
    lkFT (attrLoop m ft fc (e1 :: e2 :: es)).1 f = lkFT ft f + dtNext e1 (e2 :: es) := by
  have hgf : f ≠ g := Ne.symm hfg
  have hm1 : (mUpd m e1) e1.depth = some f := by
    simp [mUpd, h1]
  have hb1 : (active_func (mUpd m e1) e1.depth).getD noFunc = f := by
    rw [active_func_self _ e1.depth f hpos hm1]
    rfl
  have hstep1 : attrLoop m ft fc (e1 :: e2 :: es)
      = attrLoop (mUpd m e1) (addTime ft f (dtNext e1 (e2 :: es)))
          (incrCall fc f) (e2 :: es) := by
    show attrLoop (mUpd m e1)
        (addTime ft ((active_func (mUpd m e1) e1.depth).getD noFunc) (dtNext e1 (e2 :: es)))
        (fcUpd fc e1) (e2 :: es) = _
    rw [hb1]
    simp [fcUpd, h1]
  have hm2 : (mUpd (mUpd m e1) e2) e1.depth = some g := by
    simp [mUpd, h2, hd]
  have hb2 : (active_func (mUpd (mUpd m e1) e2) e2.depth).getD noFunc = g := by
    rw [hd, active_func_self _ e1.depth g hpos hm2]
    rfl
  have hstep2 : attrLoop (mUpd m e1) (addTime ft f (dtNext e1 (e2 :: es)))
        (incrCall fc f) (e2 :: es)
      = attrLoop (mUpd (mUpd m e1) e2)
          (addTime (addTime ft f (dtNext e1 (e2 :: es))) g (dtNext e2 es))
          (incrCall (incrCall fc f) g) es := by
    show attrLoop (mUpd (mUpd m e1) e2)
        (addTime _ ((active_func (mUpd (mUpd m e1) e2) e2.depth).getD noFunc) (dtNext e2 es))
        (fcUpd (incrCall fc f) e2) es = _
    rw [hb2]
    simp [fcUpd, h2]
  obtain ⟨hcalls, hg, hother⟩ :=
    attrLoop_const_depth es (mUpd (mUpd m e1) e2) g e1.depth hpos hm2 hes
      (addTime (addTime ft f (dtNext e1 (e2 :: es))) g (dtNext e2 es))
      (incrCall (incrCall fc f) g)
  rw [hstep1, hstep2]
  refine ⟨?_, ?_, ?_, ?_⟩
  · rw [hcalls, lkC_incrCall, if_pos rfl, lkC_incrCall, if_neg hfg]
  · rw [hcalls, lkC_incrCall, if_neg hgf, lkC_incrCall, if_pos rfl]
  · rw [hg, lkFT_addTime, if_pos rfl, lkFT_addTime, if_neg hfg]
    simp [sumDts]
    ring
  · rw [hother f hgf, lkFT_addTime, if_neg hgf, lkFT_addTime, if_pos rfl]

theorem c4_marker_overwrite_witness :
    lkC (attrLoop (fun _ => none) [] [] [c4E1, c4E2, c4E3]).2 "g" = lkC [] "g" + 1 ∧
    lkC (attrLoop (fun _ => none) [] [] [c4E1, c4E2, c4E3]).2 "f" = lkC [] "f" + 1 ∧
    lkFT (attrLoop (fun _ => none) [] [] [c4E1, c4E2, c4E3]).1 "g"
      = lkFT [] "g" + sumDts [c4E2, c4E3] ∧
    lkFT (attrLoop (fun _ => none) [] [] [c4E1, c4E2, c4E3]).1 "f"
      = lkFT [] "f" + dtNext c4E1 [c4E2, c4E3] :=
  c4_marker_overwrite (fun _ => none) [] [] c4E1 c4E2 [c4E3] "f" "g"
    (by decide) (by decide) (by decide) (by decide) (by decide) (by decide)

/-- C5: the delta of an event is `max(0, next.ts - e.ts)` when a successor
exists and `0` for the last event; a delta is never negative, and when the
timestamp of the successor is not later, processing the event leaves every
accumulated total unchanged (only its marker side effects happen). -/
theorem c5_clamping (e nxt : ParsedLine) (rest : List ParsedLine)
    (h : nxt.ts ≤ e.ts) :
    dtNext e (nxt :: rest) = 0 ∧
    dtNext e [] = 0 ∧
    (∀ (e2 : ParsedLine) (r2 : List ParsedLine), 0 ≤ dtNext e2 r2) ∧
    (∀ (m : ℕ → Option String) (ft : FuncTime) (fc : FuncCalls) (nm : String),
      lkFT (attrLoop m ft fc (e :: nxt :: rest)).1 nm
        = lkFT (attrLoop (mUpd m e) ft (fcUpd fc e) (nxt :: rest)).1 nm) := by
  have hdt : dtNext e (nxt :: rest) = 0 := by
    show pymax 0 (nxt.ts - e.ts) = 0
    unfold pymax
    rw [if_neg (not_lt.mpr (sub_nonpos.mpr h))]
  refine ⟨hdt, rfl, dtNext_nonneg, ?_⟩
  intro m ft fc nm
  have hstep : attrLoop m ft fc (e :: nxt :: rest)
      = attrLoop (mUpd m e)
          (addTime ft ((active_func (mUpd m e) e.depth).getD noFunc) 0)
          (fcUpd fc e) (nxt :: rest) := by
    show attrLoop (mUpd m e)
        (addTime ft _ (dtNext e (nxt :: rest))) (fcUpd fc e) (nxt :: rest) = _
    rw [hdt]
  rw [hstep]
  refine attrLoop_lk_congr (nxt :: rest) (mUpd m e) (fcUpd fc e) _ ft (fun nm2 => ?_) nm
  rw [lkFT_addTime]
  split
  · rw [add_zero]
  · rfl

theorem c5_clamping_witness : dtNext c5E1 [c5E2] = 0 :=
  (c5_clamping c5E1 c5E2 [] (by decide)).1

/-- C6: an input with zero accepted events makes the pipeline fail with the
user-visible diagnostic and a non-zero exit (modelled as `Except.error`),
before any attribution or summary computation; with at least one accepted
event the attribution engine always succeeds and the run returns a
summary. -/
theorem c6_empty_input (lines : List (List Char)) :
    (parse_log lines = [] →
        run_main lines = Except.error diagMsg ∧
        attribute_time (parse_log lines) = none) ∧
    (parse_log lines ≠ [] →
        (attribute_time (parse_log lines)).isSome = true ∧
        ∃ rows wall, run_main lines = Except.ok (rows, wall)) := by
  constructor
  · intro h
    constructor
    · unfold run_main
      rw [h]
    · rw [h]
      rfl
  · intro h
    obtain ⟨e, rest, hpl⟩ := List.exists_cons_of_ne_nil h
    rw [hpl]
    refine ⟨rfl, build_summary (attributeTimeNE e rest).1 (attributeTimeNE e rest).2.1
        (attributeTimeNE e rest).2.2, (attributeTimeNE e rest).2.2, ?_⟩
    unfold run_main
    rw [hpl]

theorem c6_empty_input_witness :
    run_main c6Lines = Except.error diagMsg ∧
    attribute_time (parse_log c6Lines) = none :=
  (c6_empty_input c6Lines).1 (by decide)

/-- C7: the summary rows are sorted by the total preorder "larger
totalSeconds first, ties broken by ascending name", for every accumulator
set and wall time — the output order is a deterministic function of the
input. -/
theorem c7_summary_sorted (ft : FuncTime) (fc : FuncCalls) (wall : ℚ) :
    List.Sorted rowKey (build_summary ft fc wall) :=
  List.sorted_insertionSort rowKey _

/-- C9: the average of every summary row is `total / calls` when its call count
is positive and `0` when it is zero, and its percentage is
`total / wall * 100` when wall is positive and `0` otherwise — both
divisions are guarded by the corresponding `if`, so the builder is total. -/
theorem c9_guarded_divisions (ft : FuncTime) (fc : FuncCalls) (wall : ℚ)
    (row : SummaryRow) (hmem : row ∈ build_summary ft fc wall) :
    (row.calls ≠ 0 → row.avg = row.total / (row.calls : ℚ)) ∧
    (row.calls = 0 → row.avg = 0) ∧
    (0 < wall → row.pct = row.total / wall * 100) ∧
    (¬ 0 < wall → row.pct = 0) := by
  unfold build_summary at hmem
  rw [(List.perm_insertionSort rowKey _).mem_iff] at hmem
  obtain ⟨p, hp, hrow⟩ := List.mem_map.mp hmem
  rw [← hrow]
  refine ⟨fun h => ?_, fun h => ?_, fun h => ?_, fun h => ?_⟩
  · show (if lkC fc p.1 ≠ 0 then p.2 / (lkC fc p.1 : ℚ) else 0)
        = p.2 / ((lkC fc p.1 : ℕ) : ℚ)
    rw [if_pos h]
  · show (if lkC fc p.1 ≠ 0 then p.2 / (lkC fc p.1 : ℚ) else 0) = 0
    rw [if_neg (by simpa using h)]
  · show (if 0 < wall then p.2 / wall * 100 else 0) = p.2 / wall * 100
    rw [if_pos h]
  · show (if 0 < wall then p.2 / wall * 100 else 0) = 0
    rw [if_neg h]

theorem c9_guarded_divisions_witness :
    ((⟨"a", 1, 100, 0, 0⟩ : SummaryRow).calls ≠ 0 →
        (⟨"a", 1, 100, 0, 0⟩ : SummaryRow).avg
          = (⟨"a", 1, 100, 0, 0⟩ : SummaryRow).total
              / ((⟨"a", 1, 100, 0, 0⟩ : SummaryRow).calls : ℚ)) ∧
    ((⟨"a", 1, 100, 0, 0⟩ : SummaryRow).calls = 0 →
        (⟨"a", 1, 100, 0, 0⟩ : SummaryRow).avg = 0) ∧
    (0 < (1 : ℚ) →
        (⟨"a", 1, 100, 0, 0⟩ : SummaryRow).pct
          = (⟨"a", 1, 100, 0, 0⟩ : SummaryRow).total / (1 : ℚ) * 100) ∧
    (¬ 0 < (1 : ℚ) → (⟨"a", 1, 100, 0, 0⟩ : SummaryRow).pct = 0) :=
  c9_guarded_divisions [("a", 1)] [] 1 ⟨"a", 1, 100, 0, 0⟩ (by decide)

/-- Any name found by the marker detector is made of `[A-Za-z0-9_-]`
characters only, so it is never the sentinel `<no-func>`. -/
theorem findMarker_ne_noFunc (cs : List Char) (nm : String)
    (h : findMarker cs = some nm) : nm ≠ noFunc := by
  unfold findMarker at h
  cases haux : findMarkerAux [] cs with
  | none => rw [haux] at h; exact absurd h (by simp)
  | some l =>
    rw [haux] at h
    have h2 : (⟨l⟩ : String) = nm := by
      injection h with h2
    clear h
    have htok := findMarkerAux_token cs [] l (by simp) haux
    intro hcontra
    have hl : l = noFunc.data := by
      have : (⟨l⟩ : String) = noFunc := by rw [h2, hcontra]
      exact congrArg String.data this
    have hmem : '<' ∈ l := by
      rw [hl]
      show '<' ∈ "<no-func>".data
      decide
    have : isTokenCh '<' = true := htok '<' hmem
    exact absurd this (by decide)

/-- The call counter of the sentinel can never be incremented: every declared
function of an accepted event comes from the marker detector. -/
theorem sentinel_calls_zero (e : ParsedLine) (rest : List ParsedLine)
    (lines : List (List Char)) (hpl : parse_log lines = e :: rest) :
    lkC (attrLoop (fun _ => none) [] [] (e :: rest)).2 noFunc = 0 := by
  rw [attrLoop_calls_of_not_marked (e :: rest) _ _ _ noFunc]
  · rfl
  · intro ev hev hcontra
    have hin : ev ∈ parse_log lines := by rw [hpl]; exact hev
    obtain ⟨cs, hcs⟩ := parseLogAux_func lines 0 ev hin
    rw [hcontra] at hcs
    exact findMarker_ne_noFunc cs noFunc hcs.symm rfl

/-- C10: the marker token class `[A-Za-z0-9_-]` cannot produce the
sentinel name `<no-func>`; consequently the sentinel accumulator is
disjoint from every detected function, its call counter stays `0` on every
input, and any summary row named `<no-func>` reports `0` calls and average
`0`. -/
theorem c10_sentinel_isolated :
    (∀ (cs : List Char) (nm : String), findMarker cs = some nm → nm ≠ noFunc) ∧
    (∀ (lines : List (List Char)) (r : FuncTime × FuncCalls × ℚ),
        attribute_time (parse_log lines) = some r → lkC r.2.1 noFunc = 0) ∧
    (∀ (lines : List (List Char)) (rows : List SummaryRow) (wall : ℚ),
        run_main lines = Except.ok (rows, wall) →
        ∀ row ∈ rows, row.name = noFunc → row.calls = 0 ∧ row.avg = 0) := by
  refine ⟨findMarker_ne_noFunc, fun lines r h => ?_, fun lines rows wall h row hrow hname => ?_⟩
  · cases hpl : parse_log lines with
    | nil =>
      rw [hpl] at h
      exact Option.noConfusion
        (show (none : Option (FuncTime × FuncCalls × ℚ)) = some r from h)
    | cons e rest =>
      rw [hpl] at h
      have hr : r = attributeTimeNE e rest := by
        have : attribute_time (e :: rest) = some (attributeTimeNE e rest) := rfl
        rw [this] at h
        injection h with h2
        exact h2.symm
      rw [hr]
      exact sentinel_calls_zero e rest lines hpl
  · cases hpl : parse_log lines with
    | nil =>
      unfold run_main at h
      rw [hpl] at h
      exact Except.noConfusion
        (show (Except.error diagMsg : Except String (List SummaryRow × ℚ))
          = Except.ok (rows, wall) from h)
    | cons e rest =>
      unfold run_main at h
      rw [hpl] at h
      have hrows : rows = build_summary (attributeTimeNE e rest).1
          (attributeTimeNE e rest).2.1 (attributeTimeNE e rest).2.2 := by
        have h2 : (Except.ok
            (build_summary (attributeTimeNE e rest).1 (attributeTimeNE e rest).2.1
              (attributeTimeNE e rest).2.2, (attributeTimeNE e rest).2.2)
            : Except String (List SummaryRow × ℚ))
            = Except.ok (rows, wall) := h
        injection h2 with h3
        exact (congrArg Prod.fst h3).symm
      have hcz : lkC (attributeTimeNE e rest).2.1 noFunc = 0 :=
        sentinel_calls_zero e rest lines hpl
      rw [hrows] at hrow
      unfold build_summary at hrow
      rw [(List.perm_insertionSort rowKey _).mem_iff] at hrow
      obtain ⟨p, hp, hpr⟩ := List.mem_map.mp hrow
      have hpname : p.1 = noFunc := by
        rw [← hpr] at hname
        exact hname
      have hcalls0 : lkC (attributeTimeNE e rest).2.1 p.1 = 0 := by
        rw [hpname]
        exact hcz
      constructor
      · rw [← hpr]
        show lkC (attributeTimeNE e rest).2.1 p.1 = 0
        exact hcalls0
      · rw [← hpr]
        show (if lkC (attributeTimeNE e rest).2.1 p.1 ≠ 0
            then p.2 / ((lkC (attributeTimeNE e rest).2.1 p.1 : ℕ) : ℚ) else 0) = 0
        rw [if_neg (by simpa using hcalls0)]

theorem c10_sentinel_isolated_witness :
    (⟨noFunc, 1, 100, 0, 0⟩ : SummaryRow).calls = 0 ∧
    (⟨noFunc, 1, 100, 0, 0⟩ : SummaryRow).avg = 0 :=
  c10_sentinel_isolated.2.2 c10Lines [⟨noFunc, 1, 100, 0, 0⟩] 1 (by decide)
    ⟨noFunc, 1, 100, 0, 0⟩ (by decide) rfl

/-! Helper lemmas for the line-grammar claim. -/

theorem plus_char (c : Char) (h : isPlusCh c = true) : c = '+' := eq_of_beq h

theorem mem_of_mem_dropWhile (p : Char → Bool) :
    ∀ (l : List Char) (a : Char), a ∈ l.dropWhile p → a ∈ l := by
  intro l
  induction l with
  | nil => intro a h; exact absurd h (by simp)
  | cons c t ih =>
    intro a h
    rw [List.dropWhile_cons] at h
    split at h
    · exact List.mem_cons_of_mem c (ih a h)
    · exact h

/-- Soundness half of the regex refinement: a successful parse yields the
grammar decomposition. -/
theorem decomp_of_parse (cs : List Char) (h : (parseLineChars cs).isSome = true) :
    MatchesLine cs := by
  simp only [parseLineChars] at h
  by_cases hA : (cs.takeWhile isPlusCh).isEmpty = true
  · rw [if_pos hA] at h
    exact absurd h (by simp)
  rw [if_neg hA] at h
  by_cases hB : ((cs.dropWhile isPlusCh).takeWhile isSpaceCh).isEmpty = true
  · rw [if_pos hB] at h
    exact absurd h (by simp)
  rw [if_neg hB] at h
  by_cases hC : (((cs.dropWhile isPlusCh).dropWhile isSpaceCh).takeWhile isDigitCh).isEmpty
      = true
  · rw [if_pos hC] at h
    exact absurd h (by simp)
  rw [if_neg hC] at h
  by_cases hD : (((cs.dropWhile isPlusCh).dropWhile isSpaceCh).dropWhile isDigitCh).head?
      ≠ some '.'
  · rw [if_pos hD] at h
    exact absurd h (by simp)
  rw [if_neg hD] at h
  rw [Classical.not_not] at hD
  by_cases hE : ((((((cs.dropWhile isPlusCh).dropWhile isSpaceCh).dropWhile
      isDigitCh).tail).takeWhile isDigitCh).length) < 6
  · rw [if_pos hE] at h
    exact absurd h (by simp)
  rw [if_neg hE] at h
  by_cases hF : ((((((cs.dropWhile isPlusCh).dropWhile isSpaceCh).dropWhile
      isDigitCh).tail).dropWhile isDigitCh).takeWhile isSpaceCh).isEmpty = true
  · rw [if_pos hF] at h
    exact absurd h (by simp)
  rw [if_neg hF] at h
  have heq : ((cs.dropWhile isPlusCh).dropWhile isSpaceCh).dropWhile isDigitCh
      = '.' :: (((cs.dropWhile isPlusCh).dropWhile isSpaceCh).dropWhile isDigitCh).tail := by
    cases hE3 : ((cs.dropWhile isPlusCh).dropWhile isSpaceCh).dropWhile isDigitCh with
    | nil => rw [hE3] at hD; exact absurd hD (by simp)
    | cons b t =>
      rw [hE3] at hD
      simp only [List.head?_cons, Option.some.injEq] at hD
      rw [hD]
      rfl
  refine ⟨(cs.takeWhile isPlusCh).length,
    ((cs.dropWhile isPlusCh).dropWhile isSpaceCh).takeWhile isDigitCh,
    (((cs.dropWhile isPlusCh).dropWhile isSpaceCh).dropWhile isDigitCh).tail
      |>.takeWhile isDigitCh,
    (cs.dropWhile isPlusCh).takeWhile isSpaceCh,
    ((((cs.dropWhile isPlusCh).dropWhile isSpaceCh).dropWhile isDigitCh).tail
      |>.dropWhile isDigitCh).takeWhile isSpaceCh,
    ((((cs.dropWhile isPlusCh).dropWhile isSpaceCh).dropWhile isDigitCh).tail
      |>.dropWhile isDigitCh).dropWhile isSpaceCh,
    ?_, ?_, ?_, ?_, ?_, ?_, ?_, ?_, ?_, ?_⟩
  · rw [List.length_pos]
    intro hcontra
    exact hA (by rw [hcontra]; rfl)
  · intro hcontra
    exact hB (by rw [hcontra]; rfl)
  · intro hcontra
    exact hC (by rw [hcontra]; rfl)
  · omega
  · intro hcontra
    exact hF (by rw [hcontra]; rfl)
  · intro c hc
    exact List.mem_takeWhile_imp hc
  · intro c hc
    exact List.mem_takeWhile_imp hc
  · intro c hc
    exact List.mem_takeWhile_imp hc
  · intro c hc
    exact List.mem_takeWhile_imp hc
  · conv_rhs => rw [List.takeWhile_append_dropWhile isSpaceCh
        ((((cs.dropWhile isPlusCh).dropWhile isSpaceCh).dropWhile isDigitCh).tail
          |>.dropWhile isDigitCh),
      List.takeWhile_append_dropWhile isDigitCh
        (((cs.dropWhile isPlusCh).dropWhile isSpaceCh).dropWhile isDigitCh).tail]
    rw [← heq]
    conv_rhs => rw [List.takeWhile_append_dropWhile isDigitCh
        ((cs.dropWhile isPlusCh).dropWhile isSpaceCh),
      List.takeWhile_append_dropWhile isSpaceCh (cs.dropWhile isPlusCh)]
    have hrepl : cs.takeWhile isPlusCh
        = List.replicate (cs.takeWhile isPlusCh).length '+' :=
      List.eq_replicate_of_mem (fun b hb => plus_char b (List.mem_takeWhile_imp hb))
    conv_rhs => rw [← hrepl]
    rw [List.takeWhile_append_dropWhile isPlusCh cs]

/-- Completeness half of the regex refinement: a grammar decomposition
forces a successful parse with the depth and timestamp of the decomposition. -/
theorem parse_of_decomp (cs : List Char) (hnl : '\n' ∉ cs) (n : ℕ) (ds fs : List Char)
    (hdc : LineDecomp cs n ds fs) :
    ∃ r, parseLineChars cs = some (n, tsVal ds fs, r) := by
  obtain ⟨w1, w2, rest0, hn, hw1ne, hdsne, hfslen, hw2ne, hw1sp, hdsdig, hfsdig, hw2sp, hcs⟩ := hdc
  obtain ⟨wc, w1t, rfl⟩ := List.exists_cons_of_ne_nil hw1ne
  obtain ⟨dc, dst, rfl⟩ := List.exists_cons_of_ne_nil hdsne
  obtain ⟨sc, w2t, rfl⟩ := List.exists_cons_of_ne_nil hw2ne
  subst hcs
  simp only [List.cons_append] at hnl ⊢
  have hplus : ∀ c ∈ List.replicate n '+', isPlusCh c = true := by
    intro c hc
    rw [List.eq_of_mem_replicate hc]
    rfl
  have hwcsp : isSpaceCh wc = true := hw1sp wc (List.mem_cons_self _ _)
  have hdcdig : isDigitCh dc = true := hdsdig dc (List.mem_cons_self _ _)
  have hscsp : isSpaceCh sc = true := hw2sp sc (List.mem_cons_self _ _)
  have h1 := takeWhile_app_stop isPlusCh (List.replicate n '+') wc
      (w1t ++ dc :: (dst ++ '.' :: (fs ++ sc :: (w2t ++ rest0))))
      hplus (space_not_plus wc hwcsp)
  have h2 := takeWhile_app_stop isSpaceCh (wc :: w1t) dc
      (dst ++ '.' :: (fs ++ sc :: (w2t ++ rest0)))
      hw1sp (digit_not_space dc hdcdig)
  simp only [List.cons_append] at h2
  have h3 := takeWhile_app_stop isDigitCh (dc :: dst) '.'
      (fs ++ sc :: (w2t ++ rest0)) hdsdig dot_not_digit
  simp only [List.cons_append] at h3
  have h4 := takeWhile_app_stop isDigitCh fs sc (w2t ++ rest0)
      hfsdig (space_not_digit sc hscsp)
  have h5 := takeWhile_app_all isSpaceCh (sc :: w2t) rest0 hw2sp
  simp only [List.cons_append] at h5
  have hre : (List.replicate n '+').isEmpty = false := by
    rw [List.isEmpty_eq_false]
    intro hcontra
    rw [List.replicate_eq_nil_iff] at hcontra
    omega
  have hfs6 : ¬ (fs.length < 6) := by omega
  have hnl6 : ¬ ('\n' ∈ List.dropWhile isSpaceCh rest0) := by
    intro hc
    exact hnl (by
      have hr0 : '\n' ∈ rest0 := mem_of_mem_dropWhile isSpaceCh rest0 '\n' hc
      simp only [List.mem_append, List.mem_cons]
      tauto)
  have hn0 : n ≠ 0 := by omega
  refine ⟨List.dropWhile isSpaceCh rest0, ?_⟩
  simp [parseLineChars, h1.1, h1.2, h2.1, h2.2, h3.1, h3.2, h4.1, h4.2,
    h5.1, h5.2, hre, hfs6, hnl6, hn0]

/-- C8: a line yields an accepted event exactly when it has the shape
"one or more `+`, whitespace, `digits.digits{6,}`, whitespace, remainder"
(for the newline-free lines the reader hands over); the accepted event has
depth is the `+` count and its timestamp is the decimal value of the digit
groups (exact rational standing in for `float`); any non-matching line is
dropped from the parsed sequence without a trace. -/
theorem c8_line_parser_grammar (cs : List Char) (hnl : '\n' ∉ cs) :
    ((parseLineChars cs).isSome = true ↔ MatchesLine cs) ∧
    (∀ (n : ℕ) (ds fs : List Char), LineDecomp cs n ds fs →
        ∃ r, parseLineChars cs = some (n, tsVal ds fs, r)) ∧
    (∀ (s : List Char) (tail : List (List Char)) (i : ℕ),
        parseLine s = none → parseLogAux i (s :: tail) = parseLogAux (i + 1) tail) := by
  refine ⟨⟨decomp_of_parse cs, fun hm => ?_⟩,
    fun n ds fs hd => parse_of_decomp cs hnl n ds fs hd,
    fun s tail i h => by simp only [parseLogAux, h]⟩
  obtain ⟨n, ds, fs, hd⟩ := hm
  obtain ⟨r, hr⟩ := parse_of_decomp cs hnl n ds fs hd
  rw [hr]
  rfl

theorem c8_line_parser_grammar_witness : MatchesLine ("+ 1.123456 x".data) :=
  ((c8_line_parser_grammar "+ 1.123456 x".data (by decide)).1).mp (by decide)

end Profiler
